import Mathlib

/-!
Shallow embedding of `pyscf/lib/dft/numint_uniform_grid.c` (numerical
integration of GTO products on uniform grids) together with proofs about the
properties its specification states.

Modelling conventions:
* C `double` arithmetic is modelled over `ℝ` (exact real arithmetic); the
  library functions `log`, `exp`, `sqrt`, `fabs`, `floor`, `ceil` become
  `Real.log`, `Real.exp`, `Real.sqrt`, `|·|`, `Int.floor`, `Int.ceil`.
* C memory regions (`double *`) are modelled as total functions `ℤ → ℝ` (or
  `ℕ → ℝ` for regions that are only ever indexed from their base); a store is a
  functional update, a loop is a `List.foldl` over the range of its counter.
* C `int` values that can go negative are modelled as `ℤ`; the C cast
  `(int)x` (truncation toward zero) and the C `%` operator (truncated
  remainder) are `ctrunc` and `Int.tmod`.
* Functions that the file only declares and calls (BLAS `dgemm_`, libcint's
  `CINTsquare_dist` / `CINTcommon_fac_sp` / `CINTinit_int1e_EnvVars`,
  `GTOplain_vrr2d`, the `c2s_*_1e` transforms, `NPdsymm_triu`) are external
  collaborators: `dgemm_` and `CINTsquare_dist` are given their documented
  meaning, the opaque transforms become function parameters, and
  `NPdsymm_triu` is modelled from the spec (it is not part of src/).
-/

namespace NumintGrid

/-! ### File-scope constants (numint_uniform_grid.c lines 34-59) -/

/-- Fill-mode flag `PLAIN`. -/
def PLAIN : ℕ := 0

/-- Fill-mode flag `HERMITIAN`. -/
def HERMITIAN : ℕ := 1

/-- Fill-mode flag `ANTIHERMI`. -/
def ANTIHERMI : ℕ := 2

/-- Fill-mode flag `SYMMETRIC`. -/
def SYMMETRIC : ℕ := 3

/-- `OF_CMPLX`. -/
def OF_CMPLX : ℕ := 2

/-- `EXPCUTOFF15` (the primitive-pair screening threshold). -/
def EXPCUTOFF15 : ℝ := 40

/-- The static table `_LEN_CART` (number of Cartesian components for angular
momentum `l`), as in the source. Reads past the table are not modelled (the
source would read out of bounds); we return 0 there. -/
def _LEN_CART (l : ℕ) : ℕ :=
  [1, 3, 6, 10, 15, 21, 28, 36, 45, 55, 66, 78, 91, 105, 120, 136].getD l 0

/-- The static table `_CUM_LEN_CART` (cumulative number of Cartesian components
up to angular momentum `l`), as in the source. -/
def _CUM_LEN_CART (l : ℕ) : ℕ :=
  [1, 4, 10, 20, 35, 56, 84, 120, 165, 220, 286, 364, 455, 560, 680, 816].getD l 0

/-! ### Cutoff radius estimator (`gto_rcut`, lines 74-96) -/

/-- `gto_rcut(alpha, l, c, log_prec)`: cutoff radius beyond which the Gaussian
tail integral is below the precision target.  The body follows the C source
line by line: subtract the penalty from `log_prec`, take `log(fabs(c))`,
accumulate `prod` (its seed value `r = 5.` is dead in the C code and does not
influence the result), then either solve for the radius or return 0.  The
angular momentum `l` is accepted but unused, exactly as in the source (the
`l`-dependent correction is commented out there). -/
noncomputable def gto_rcut (alpha : ℝ) (l : ℕ) (c : ℝ) (log_prec : ℝ) : ℝ :=
  let log_prec' := log_prec - 7
  let log_c := Real.log |c|
  let prod : ℝ := 0
  let prod := prod + (log_c - log_prec')
  if prod > 0 then Real.sqrt (prod / alpha) else 0

/-! ### Per-axis exponential recursion generator
(`_cartesian_components`, lines 98-191, and `_has_overlap`, lines 192-195) -/

/-- The C cast `(int)x` on a `double`: truncation toward zero. -/
noncomputable def ctrunc (x : ℝ) : ℤ :=
  if 0 ≤ x then ⌊x⌋ else ⌈x⌉

/-- The zeroth-power exponential row built by the one-directional recurrence of
`_cartesian_components`:  starting from `base` at offset 0, every step
multiplies by the running factor `e0 * e2 ^ k` (the C variable `exp_x0`, which
is multiplied by `exp_2dxdx` after each grid point).  Both the forward loop
(lines 153-156) and the backward loop (lines 158-162) have this shape, with
different starting factors. -/
noncomputable def exp_recurrence (base e0 e2 : ℝ) : ℕ → ℝ
  | 0 => base
  | k + 1 => exp_recurrence base e0 e2 k * (e0 * e2 ^ k)

/-- Value of `xs_all[l*nmx + i]` (power `l`, grid offset `i`, before periodic
folding):  row 0 is the exponential recurrence outward from the grid point
`gc` nearest the pair center, and row `l+1` multiplies row `l` by
`gridx[i] = x0xi + i*dx` pointwise (lines 164-175). -/
noncomputable def xs_all_row (base e0f e0b e2 x0xi dx : ℝ) (gc : ℤ) :
    ℕ → ℤ → ℝ
  | 0, i =>
      if gc ≤ i then exp_recurrence base e0f e2 (i - gc).toNat
      else exp_recurrence base e0b e2 (gc - i).toNat
  | l + 1, i => xs_all_row base e0f e0b e2 x0xi dx gc l i * (x0xi + i * dx)

/-- The periodic image folding of `_cartesian_components` (lines 177-190),
performed on the output region `xs_exp` whose prior contents are `init`.
For each power `l` (in increasing order) the C code first copies image 0 of row
`l` to `xs_exp[0..nx)` — the row offset `l*nx` is missing in the source, so for
`l ≥ 1` this clobbers row 0 — and then accumulates images `1..nimg-1` into
`xs_exp[l*nx ..)`, which for `l ≥ 1` adds onto the region's prior contents. -/
noncomputable def fold_images (row : ℕ → ℤ → ℝ) (nimg : ℤ) (nx : ℕ)
    (topl : ℕ) (init : ℤ → ℝ) : ℤ → ℝ :=
  (List.range (topl + 1)).foldl
    (fun st l =>
      let st1 : ℤ → ℝ := fun idx =>
        if 0 ≤ idx ∧ idx < (nx : ℤ) then row l idx else st idx
      fun idx =>
        if (l : ℤ) * nx ≤ idx ∧ idx < (l : ℤ) * nx + nx then
          st1 idx + ∑ m ∈ Finset.Ico 1 nimg, row l (m * nx + (idx - (l : ℤ) * nx))
        else st1 idx)
    init

/-- Result of `_cartesian_components`: the filled `img_slice` (`nimg0`,
`nimg1`), `grid_slice` (`nx0`, `nx1`) and the `xs_exp` output region. -/
structure OrthComps where
  nimg0 : ℤ
  nimg1 : ℤ
  nx0 : ℤ
  nx1 : ℤ
  xs_exp : ℤ → ℝ

/-- `_cartesian_components` (lines 98-191).  `xs_exp0` is the prior contents of
the `xs_exp` output region (observable through the image-folding quirk for
powers `l ≥ 1`); the scratch region (`gridx`, `xs_all`) is written before it is
read, so its prior contents are not a parameter.  In the non-periodic case
`xs_all` is the output region itself and the rows are laid out contiguously
(`nmx = nx_per_cell` there since `nimg = 1`). -/
noncomputable def _cartesian_components (xs_exp0 : ℤ → ℝ) (a xi xij aij : ℝ)
    (periodic : Bool) (nx_per_cell : ℕ) (topl : ℕ)
    (x_frac cutoff heights_inv : ℝ) : OrthComps :=
  let edge0 := x_frac - cutoff * heights_inv
  let edge1 := x_frac + cutoff * heights_inv
  let nimg0 : ℤ := if periodic then ⌊edge0⌋ else 0
  let nimg1 : ℤ := if periodic then ⌈edge1⌉ else 1
  let nx0raw : ℤ := ⌊edge0 * nx_per_cell⌋
  let nx1raw : ℤ := ⌈edge1 * nx_per_cell⌉
  let nx0 : ℤ :=
    if periodic then (nx0raw + nimg1 * nx_per_cell).tmod nx_per_cell
    else max 0 (min nx0raw (nx_per_cell : ℤ))
  let nx1 : ℤ :=
    if periodic then (nx1raw + nimg1 * nx_per_cell).tmod nx_per_cell
    else max 0 (min nx1raw (nx_per_cell : ℤ))
  let nimg := nimg1 - nimg0
  let gc : ℤ := ctrunc (x_frac * nx_per_cell)
  let img0_x := a * nimg0
  let dx := a / nx_per_cell
  let base_x := img0_x + dx * gc
  let x0xij := base_x - xij
  let exp_dxdx := Real.exp (-aij * dx * dx)
  let exp_2dxdx := exp_dxdx * exp_dxdx
  let e0f := Real.exp (-2 * aij * x0xij * dx) * exp_dxdx
  let e0b := Real.exp (2 * aij * x0xij * dx) * exp_dxdx
  let base := Real.exp (-aij * x0xij * x0xij)
  let row := xs_all_row base e0f e0b exp_2dxdx (img0_x - xi) dx gc
  let xs_exp : ℤ → ℝ :=
    if periodic then fold_images row nimg nx_per_cell topl xs_exp0
    else fun idx =>
      if 0 ≤ idx ∧ idx < ((topl : ℤ) + 1) * nx_per_cell then
        row (idx.ediv nx_per_cell).toNat (idx.emod nx_per_cell)
      else xs_exp0 idx
  ⟨nimg0, nimg1, nx0, nx1, xs_exp⟩

/-- `_has_overlap` (lines 192-195); the third argument is unused in the
source. -/
def _has_overlap (nx0 nx1 : ℤ) (nx_per_cell : ℕ) : Bool :=
  nx0 < nx1

/-! ### BLAS `dgemm_` ('N','N' case), as called by `GTOnumint_3d_orth` -/

/-- `dgemm_('N','N', m, n, k, alpha, A+offA, lda, B+offB, ldb, beta, C+offC,
ldc)` acting on flat memory: entry `offC + i + j*ldc` (for `0 ≤ i < m`,
`0 ≤ j < n`) becomes `beta*C[...] + alpha * Σ_t A[offA + i + t*lda] *
B[offB + t + j*ldb]`; all other memory is untouched.  Every call in this file
has `ldc = m > 0`, so decomposing the written offsets by `emod`/`ediv` is
exact.  A negative `k` makes BLAS exit with an input error before writing; the
empty `Finset.range k.toNat` matches the written result only for `k ≥ 0`, and
no call site passes a negative `m` or `n`. -/
noncomputable def dgemm_nn (m n k : ℤ) (alpha : ℝ) (A : ℤ → ℝ) (offA lda : ℤ)
    (B : ℤ → ℝ) (offB ldb : ℤ) (beta : ℝ) (C : ℤ → ℝ) (offC ldc : ℤ) :
    ℤ → ℝ := fun idx =>
  let r := idx - offC
  if 0 ≤ r ∧ r.emod ldc < m ∧ r.ediv ldc < n then
    beta * C idx + alpha * ∑ t ∈ Finset.range k.toNat,
      A (offA + r.emod ldc + t * lda) * B (offB + t + r.ediv ldc * ldb)
  else C idx

/-! ### 3D contraction engine (`GTOnumint_3d_orth`, lines 197-345) -/

/-- The x-axis stage (lines 273-290): contract the weight field's x-axis
against the x exponential-power rows into `weightyz` (whose prior contents are
`weightyz0`).  The three branches follow the image count and the
`_has_overlap` policy exactly as in the source. -/
noncomputable def x_stage (fac : ℝ) (weights xs_exp : ℤ → ℝ)
    (mesh0 mesh1 mesh2 : ℕ) (topl : ℕ) (nimgx nx0 nx1 : ℤ)
    (weightyz0 : ℤ → ℝ) : ℤ → ℝ :=
  let l1 : ℤ := (topl : ℤ) + 1
  let xcols : ℤ := (mesh1 : ℤ) * mesh2
  if nimgx = 1 then
    dgemm_nn xcols l1 (nx1 - nx0) fac weights (nx0 * xcols) xcols
      xs_exp nx0 mesh0 0 weightyz0 0 xcols
  else if nimgx = 2 ∧ ¬ _has_overlap nx0 nx1 mesh0 then
    let w1 := dgemm_nn xcols l1 nx1 fac weights 0 xcols
      xs_exp 0 mesh0 0 weightyz0 0 xcols
    dgemm_nn xcols l1 ((mesh0 : ℤ) - nx0) fac weights (nx0 * xcols) xcols
      xs_exp nx0 mesh0 1 w1 0 xcols
  else
    dgemm_nn xcols l1 mesh0 fac weights 0 xcols
      xs_exp 0 mesh0 0 weightyz0 0 xcols

/-- The y-axis stage (lines 292-315): once per x-power `lx`, contract the
`weightyz` intermediate's y-axis against the y exponential-power rows into
`weightz` (prior contents `weightz0`).  Note that in the full-range branch the
source passes `ys_exp+ny0` (not `ys_exp`) as the B operand while keeping the A
operand unshifted; this is translated verbatim. -/
noncomputable def y_stage (weightyz ys_exp : ℤ → ℝ) (mesh1 mesh2 : ℕ)
    (topl : ℕ) (nimgy ny0 ny1 : ℤ) (weightz0 : ℤ → ℝ) : ℤ → ℝ :=
  let l1 : ℤ := (topl : ℤ) + 1
  let xcols : ℤ := (mesh1 : ℤ) * mesh2
  let ycols : ℤ := (mesh2 : ℤ)
  if nimgy = 1 then
    (List.range (topl + 1)).foldl
      (fun wz lx =>
        dgemm_nn ycols l1 (ny1 - ny0) 1 weightyz ((lx : ℤ) * xcols + ny0 * ycols)
          ycols ys_exp ny0 mesh1 0 wz ((lx : ℤ) * l1 * ycols) ycols)
      weightz0
  else if nimgy = 2 ∧ ¬ _has_overlap ny0 ny1 mesh1 then
    (List.range (topl + 1)).foldl
      (fun wz lx =>
        let w1 := dgemm_nn ycols l1 ny1 1 weightyz ((lx : ℤ) * xcols) ycols
          ys_exp 0 mesh1 0 wz ((lx : ℤ) * l1 * ycols) ycols
        dgemm_nn ycols l1 ((mesh1 : ℤ) - ny0) 1 weightyz
          ((lx : ℤ) * xcols + ny0 * ycols) ycols
          ys_exp ny0 mesh1 1 w1 ((lx : ℤ) * l1 * ycols) ycols)
      weightz0
  else
    (List.range (topl + 1)).foldl
      (fun wz lx =>
        dgemm_nn ycols l1 mesh1 1 weightyz ((lx : ℤ) * xcols) ycols
          ys_exp ny0 mesh1 0 wz ((lx : ℤ) * l1 * ycols) ycols)
      weightz0

/-- One iteration of the outer `l` loop of the output stage (lines 318-320):
`lx` descending from `l` to 0, then `ly` descending from `l - lx` to 0, with
`lz = l - lx - ly`. -/
def cart_block (l : ℕ) : List (ℕ × ℕ × ℕ) :=
  ((List.range (l + 1)).reverse).flatMap fun lx =>
    ((List.range (l - lx + 1)).reverse).map fun ly => (lx, ly, l - lx - ly)

/-- The (lx,ly,lz) enumeration order of the output loop (lines 317-344):
total angular momentum `l` ascending from `floorl` to `topl`, then the inner
double loop `cart_block l`. -/
def cart_order (floorl topl : ℕ) : List (ℕ × ℕ × ℕ) :=
  (List.range' floorl (topl + 1 - floorl)).flatMap cart_block

/-- The z-axis stage body (lines 317-344): for one (lx,ly,lz) triple, the dot
product of the `weightz` row against the z exponential-power row, over the
restricted range `[nz0, nz1)` when `nimgz = 1` and the full mesh otherwise. -/
noncomputable def z_contract (weightz zs_exp : ℤ → ℝ) (mesh2 : ℕ) (topl : ℕ)
    (nimgz nz0 nz1 : ℤ) (t : ℕ × ℕ × ℕ) : ℝ :=
  let l1 : ℤ := (topl : ℤ) + 1
  let zrange : Finset ℤ :=
    if nimgz = 1 then Finset.Ico nz0 nz1 else Finset.Ico 0 (mesh2 : ℤ)
  ∑ i ∈ zrange,
    weightz (((t.1 : ℤ) * l1 + t.2.1) * mesh2 + i) * zs_exp ((t.2.2 : ℤ) * mesh2 + i)

/-- The per-axis components computed by `GTOnumint_3d_orth` (lines 224-239):
axis `k ∈ {0,1,2}` uses lattice entry `a[4k]`, scale entry `b[4k]`, mesh entry
`mesh[k]` and periodicity `dimension ≥ k+1`.  The cache regions for the three
`xs_exp`/`ys_exp`/`zs_exp` outputs are consecutive. -/
noncomputable def orth_axis (k : ℕ) (topl : ℕ) (ai aj fac log_prec : ℝ)
    (dimension : ℕ) (a b : ℤ → ℝ) (mesh0 mesh1 mesh2 : ℕ)
    (ri rj : Fin 3 → ℝ) (cache : ℤ → ℝ) : OrthComps :=
  let aij := ai + aj
  let rijk : ℝ := (ai * ri ⟨k % 3, Nat.mod_lt _ (by norm_num)⟩
      + aj * rj ⟨k % 3, Nat.mod_lt _ (by norm_num)⟩) / aij
  let cutoff := gto_rcut aij topl fac log_prec
  let frac := rijk * b (4 * k)
  let l1 : ℤ := (topl : ℤ) + 1
  let off : ℤ := if k = 0 then 0 else if k = 1 then l1 * mesh0
    else l1 * mesh0 + l1 * mesh1
  let meshk := if k = 0 then mesh0 else if k = 1 then mesh1 else mesh2
  _cartesian_components (fun i => cache (off + i)) (a (4 * k))
    (ri ⟨k % 3, Nat.mod_lt _ (by norm_num)⟩) rijk aij
    (decide (k + 1 ≤ dimension)) meshk topl frac cutoff (b (4 * k))

/-- The `weightyz` intermediate of `GTOnumint_3d_orth` (the x-stage result).
The scratch regions are laid out as in the source: `xs_exp`, `ys_exp`,
`zs_exp` at the start of `cache`, then the region reused for
`_cartesian_components` scratch and for `weightyz`/`weightz`; prior cache
contents are observable only through the `xs_exp` fold quirk, modelled in
`_cartesian_components`. -/
noncomputable def orth_weightyz (topl : ℕ) (ai aj fac log_prec : ℝ)
    (dimension : ℕ) (a b : ℤ → ℝ) (mesh0 mesh1 mesh2 : ℕ)
    (weights : ℤ → ℝ) (ri rj : Fin 3 → ℝ) (cache : ℤ → ℝ) : ℤ → ℝ :=
  let l1 : ℤ := (topl : ℤ) + 1
  let cx := orth_axis 0 topl ai aj fac log_prec dimension a b mesh0 mesh1 mesh2 ri rj cache
  let scr : ℤ := l1 * mesh0 + l1 * mesh1 + l1 * mesh2
  x_stage fac weights cx.xs_exp mesh0 mesh1 mesh2 topl
    (cx.nimg1 - cx.nimg0) cx.nx0 cx.nx1 (fun i => cache (scr + i))

/-- The `weightz` intermediate of `GTOnumint_3d_orth` (the y-stage result). -/
noncomputable def orth_weightz (topl : ℕ) (ai aj fac log_prec : ℝ)
    (dimension : ℕ) (a b : ℤ → ℝ) (mesh0 mesh1 mesh2 : ℕ)
    (weights : ℤ → ℝ) (ri rj : Fin 3 → ℝ) (cache : ℤ → ℝ) : ℤ → ℝ :=
  let l1 : ℤ := (topl : ℤ) + 1
  let cy := orth_axis 1 topl ai aj fac log_prec dimension a b mesh0 mesh1 mesh2 ri rj cache
  let scr : ℤ := l1 * mesh0 + l1 * mesh1 + l1 * mesh2
  let xcols : ℤ := (mesh1 : ℤ) * mesh2
  y_stage (orth_weightyz topl ai aj fac log_prec dimension a b mesh0 mesh1 mesh2
      weights ri rj cache) cy.xs_exp mesh1 mesh2 topl
    (cy.nimg1 - cy.nimg0) cy.nx0 cy.nx1 (fun i => cache (scr + l1 * xcols + i))

/-- The per-triple output value of `GTOnumint_3d_orth` (z-stage body applied
to the `weightz` intermediate and the z axis components). -/
noncomputable def orth_out_value (topl : ℕ) (ai aj fac log_prec : ℝ)
    (dimension : ℕ) (a b : ℤ → ℝ) (mesh0 mesh1 mesh2 : ℕ)
    (weights : ℤ → ℝ) (ri rj : Fin 3 → ℝ) (cache : ℤ → ℝ) (t : ℕ × ℕ × ℕ) : ℝ :=
  let cz := orth_axis 2 topl ai aj fac log_prec dimension a b mesh0 mesh1 mesh2 ri rj cache
  z_contract (orth_weightz topl ai aj fac log_prec dimension a b mesh0 mesh1 mesh2
      weights ri rj cache) cz.xs_exp mesh2 topl (cz.nimg1 - cz.nimg0) cz.nx0 cz.nx1 t

/-- `GTOnumint_3d_orth` (lines 197-345), returning the `out` array as the
list of values written: one `orth_out_value` per (lx,ly,lz) triple, in the
order of the output loop (`cart_order`). -/
noncomputable def GTOnumint_3d_orth (floorl topl : ℕ) (ai aj fac log_prec : ℝ)
    (dimension : ℕ) (a b : ℤ → ℝ) (mesh0 mesh1 mesh2 : ℕ)
    (weights : ℤ → ℝ) (ri rj : Fin 3 → ℝ) (cache : ℤ → ℝ) : List ℝ :=
  (cart_order floorl topl).map
    (orth_out_value topl ai aj fac log_prec dimension a b mesh0 mesh1 mesh2
      weights ri rj cache)

/-- Result type for the non-orthogonal variant: it either aborts the whole
computation with a fatal error or returns an output region. -/
inductive NonorthResult where
  | fatal (msg : String)
  | ok (out : List ℝ)

/-- `GTOnumint_3d_nonorth` (lines 347-354): prints
"GTOnumint_3d_nonorth not available" to stderr and calls `exit(1)` — a fatal
abort on every input, before any output is written. -/
def GTOnumint_3d_nonorth (floorl topl : ℕ) (ai aj fac log_prec : ℝ)
    (dimension : ℕ) (a b : ℤ → ℝ) (mesh0 mesh1 mesh2 : ℕ)
    (weights : ℤ → ℝ) (ri rj : Fin 3 → ℝ) (cache : ℤ → ℝ) : NonorthResult :=
  .fatal "GTOnumint_3d_nonorth not available"

/-! ### Shell-pair environment

The fields of `CINTEnvVars` that `GTOnumint1e_loop`, `_cache_size` and
`GTO_numint1e_drv` read, together with the basis data (`bas`/`env` entries)
they dereference.  The initialization `CINTinit_int1e_EnvVars` is an external
collaborator (libcint); a `ShellPairEnv` value stands for its result. -/

structure ShellPairEnv where
  i_l : ℕ
  j_l : ℕ
  i_ctr : ℕ
  j_ctr : ℕ
  i_prim : ℕ
  j_prim : ℕ
  nfi : ℕ
  nfj : ℕ
  nf : ℕ
  ncomp : ℕ        -- `ncomp_e1 * ncomp_tensor`
  ri : Fin 3 → ℝ
  rj : Fin 3 → ℝ
  ai : ℕ → ℝ       -- `env + bas(PTR_EXP, i_sh)`
  aj : ℕ → ℝ
  ci : ℕ → ℝ       -- `env + bas(PTR_COEFF, i_sh)`, column-major (nprim × nctr)
  cj : ℕ → ℝ

/-- `CINTsquare_dist(ri, rj)` (external, libcint): squared Euclidean
distance. -/
noncomputable def square_dist (r1 r2 : Fin 3 → ℝ) : ℝ :=
  (r1 0 - r2 0) ^ 2 + (r1 1 - r2 1) ^ 2 + (r1 2 - r2 2) ^ 2

/-- `max_pgto_coeff` (lines 384-392): the largest magnitude of the contraction
coefficients that use primitive `prim_id`, accumulated with `MAX` starting
from 0 as in the source. -/
noncomputable def max_pgto_coeff (coeff : ℕ → ℝ) (nprim nctr prim_id : ℕ) : ℝ :=
  (List.range nctr).foldl (fun maxc i => max maxc |coeff (i * nprim + prim_id)|) 0

/-- `log_iprim_max[ip]` (line 436): natural log of the largest i-coefficient
magnitude for primitive `ip`.  (`Real.log` agrees with C's `log` on positive
arguments; an all-zero coefficient column, where C would produce `-inf`, is
outside the model.) -/
noncomputable def log_prim_max (env : ShellPairEnv) (iside : Bool) (p : ℕ) : ℝ :=
  if iside then Real.log (max_pgto_coeff env.ci env.i_prim env.i_ctr p)
  else Real.log (max_pgto_coeff env.cj env.j_prim env.j_ctr p)

/-- The screening test of `GTOnumint1e_loop` (lines 450-455): primitive pair
(ip, jp) is skipped iff `eij - logcc > EXPCUTOFF15`. -/
noncomputable def screened_out (env : ShellPairEnv) (ip jp : ℕ) : Prop :=
  let aij := env.ai ip + env.aj jp
  let eij := env.ai ip * env.aj jp / aij * square_dist env.ri env.rj
  let logcc := log_prim_max env true ip + log_prim_max env false jp
  eij - logcc > EXPCUTOFF15

/-- `plain_prim_to_ctr` (lines 356-382): accumulate the primitive block `gp`
(of `nf` values) into each of the `nctr` contraction blocks of `gc`, scaled by
`coeff[nprim*n]`; on `empty` the blocks are overwritten instead, and a zero
coefficient skips the accumulation (but not the overwrite). -/
noncomputable def plain_prim_to_ctr (gc : ℕ → ℝ) (nf : ℕ) (gp : ℕ → ℝ)
    (nprim nctr : ℕ) (coeff : ℕ → ℝ) (empty : Bool) : ℕ → ℝ := fun idx =>
  let n := idx / nf
  let i := idx % nf
  if n < nctr then
    let c := coeff (nprim * n)
    if empty then gp i * c
    else if c ≠ 0 then gc idx + gp i * c
    else gc idx
  else gc idx

/-- `offset_g1d = _CUM_LEN_CART[i_l] - _LEN_CART[i_l]` (line 424). -/
def offset_g1d (env : ShellPairEnv) : ℕ :=
  _CUM_LEN_CART env.i_l - _LEN_CART env.i_l

/-- `len_g1d = _CUM_LEN_CART[i_l+j_l] - offset_g1d` (line 425). -/
def len_g1d (env : ShellPairEnv) : ℕ :=
  _CUM_LEN_CART (env.i_l + env.j_l) - offset_g1d env

/-- Number of cache elements `GTOnumint1e_loop` claims before handing the rest
on (line 433): `lenj + leni + len_g1d + i_prim + j_prim`. -/
def loop_cache_offset (env : ShellPairEnv) : ℕ :=
  len_g1d env * env.i_ctr * env.j_ctr + len_g1d env * env.i_ctr + len_g1d env
    + env.i_prim + env.j_prim

open scoped Classical

/-- The inner primitive loop of `GTOnumint1e_loop` (lines 449-464) for a fixed
`jp`: fold over `ip`, carrying `(gctri, iempty)`.  A screened pair leaves the
state unchanged; otherwise the pair's `GTOnumint_3d_orth` block is accumulated
into `gctri` and `iempty` is cleared. -/
noncomputable def prim_i_loop (env : ShellPairEnv) (fac1 log_prec : ℝ)
    (dimension : ℕ) (a b : ℤ → ℝ) (mesh0 mesh1 mesh2 : ℕ) (weights : ℤ → ℝ)
    (cache : ℤ → ℝ) (jp : ℕ) (init : (ℕ → ℝ) × Bool) : (ℕ → ℝ) × Bool :=
  (List.range env.i_prim).foldl
    (fun st ip =>
      if screened_out env ip jp then st
      else
        let aij := env.ai ip + env.aj jp
        let eij := env.ai ip * env.aj jp / aij * square_dist env.ri env.rj
        let logcc := log_prim_max env true ip + log_prim_max env false jp
        let fac1i := fac1 * Real.exp (-eij)
        let g := GTOnumint_3d_orth env.i_l (env.i_l + env.j_l) (env.ai ip)
          (env.aj jp) fac1i (logcc + log_prec) dimension a b mesh0 mesh1 mesh2
          weights env.ri env.rj (fun i => cache (loop_cache_offset env + i))
        (plain_prim_to_ctr st.1 (len_g1d env) (fun k => g.getD k 0)
          env.i_prim env.i_ctr (fun k => env.ci (ip + k)) st.2, false))
    init

/-- One iteration of the outer (`jp`) primitive loop of `GTOnumint1e_loop`
(lines 447-470), acting on the state `(gctrj, gctri, jempty)`: run the inner
`ip` loop with a fresh `iempty`, and if it cleared, accumulate `gctri` into
`gctrj` and clear `jempty`. -/
noncomputable def prim_j_step (env : ShellPairEnv) (fac1 log_prec : ℝ)
    (dimension : ℕ) (a b : ℤ → ℝ) (mesh0 mesh1 mesh2 : ℕ) (weights : ℤ → ℝ)
    (cache : ℤ → ℝ) (st : (ℕ → ℝ) × (ℕ → ℝ) × Bool) (jp : ℕ) :
    (ℕ → ℝ) × (ℕ → ℝ) × Bool :=
  let inner := prim_i_loop env fac1 log_prec dimension a b mesh0 mesh1 mesh2
    weights cache jp (st.2.1, true)
  if inner.2 = false then
    (plain_prim_to_ctr st.1 (env.i_ctr * len_g1d env) inner.1
      env.j_prim env.j_ctr (fun k => env.cj (jp + k)) st.2.2, inner.1, false)
  else (st.1, inner.1, st.2.2)

/-- The state after the whole double primitive loop of `GTOnumint1e_loop`:
`(gctrj, gctri, jempty)` starting from the prior cache contents and
`*jempty = 1`. -/
noncomputable def prim_loops (env : ShellPairEnv) (fac1 log_prec : ℝ)
    (dimension : ℕ) (a b : ℤ → ℝ) (mesh0 mesh1 mesh2 : ℕ) (weights : ℤ → ℝ)
    (cache : ℤ → ℝ) : (ℕ → ℝ) × (ℕ → ℝ) × Bool :=
  let lenj := len_g1d env * env.i_ctr * env.j_ctr
  (List.range env.j_prim).foldl
    (prim_j_step env fac1 log_prec dimension a b mesh0 mesh1 mesh2 weights cache)
    ((fun i => cache i), (fun i => cache (lenj + i)), true)

/-- `GTOnumint1e_loop` (lines 394-479).  `fac_sp` is the external
`CINTcommon_fac_sp` and `vrr2d` the external `GTOplain_vrr2d` (mapping one
`len_g1d` block of `gctrj` to one `nf` block of `out`); `out0` and `cache` are
the prior contents of the output block and the scratch cache.  Returns the
final contents of the output block together with the `!*jempty` return value
(whether any primitive pair survived screening). -/
noncomputable def GTOnumint1e_loop (env : ShellPairEnv)
    (fac_sp : ℕ → ℝ) (vrr2d : (ℕ → ℝ) → ℕ → ℝ) (fac log_prec : ℝ)
    (dimension : ℕ) (a b : ℤ → ℝ) (mesh0 mesh1 mesh2 : ℕ) (weights : ℤ → ℝ)
    (out0 : ℕ → ℝ) (cache : ℤ → ℝ) : (ℕ → ℝ) × Bool :=
  let fac1 := fac * fac_sp env.i_l * fac_sp env.j_l
  let fin := prim_loops env fac1 log_prec dimension a b mesh0 mesh1 mesh2
    weights cache
  let out : ℕ → ℝ := fun idx =>
    if fin.2.2 = false ∧ idx < env.i_ctr * env.j_ctr * env.nf then
      vrr2d (fun k => fin.1 (idx / env.nf * len_g1d env + k)) (idx % env.nf)
    else out0 idx
  (out, !fin.2.2)

/-- `_cache_size` (lines 481-496): the sizing formula, a pure function of the
shell pair's metadata and the mesh. -/
def _cache_size (mesh0 mesh1 mesh2 : ℕ) (env : ShellPairEnv) : ℕ :=
  let n_comp := env.ncomp
  let nc := env.nf * env.i_ctr * env.j_ctr
  let l := env.i_l + env.j_l
  let l1 := l + 1
  let cache_size :=
    _CUM_LEN_CART l * (1 + env.i_ctr + env.i_ctr * env.j_ctr)
    + l1 * (mesh0 + mesh1 + mesh2)
    + l1 * mesh1 * mesh2
    + l1 * l1 * mesh2
    + 20
  nc * n_comp + max cache_size (env.nf * 8 * OF_CMPLX)

/-- Result of `GTO_numint1e_drv` when called with a real output buffer: the
returned `has_value` flag, the final contents of the `gctr` region at the head
of the cache, and the final contents of the output block. -/
structure DrvResult where
  has_value : Bool
  gctr : ℕ → ℝ
  out : ℕ → ℝ

/-- The execution path of `GTO_numint1e_drv` (lines 498-539, `out != NULL`
branch): reserve `nc*n_comp` cache elements for `gctr`, run the loop, zero-fill
`gctr` when nothing survived screening, and apply the external `f_c2s`
transform per tensor component only when something survived.  `is_sph` models
the function-pointer identity test `f_c2s == &c2s_sph_1e`; `f_c2s` maps the
`gctr` component block to the output block, whose extent `nout` comes from
`dims` (or from the computed `counts` when `dims` is absent). -/
noncomputable def GTO_numint1e_drv (env : ShellPairEnv) (is_sph : Bool)
    (f_c2s : (ℕ → ℝ) → ℕ → ℝ) (fac_sp : ℕ → ℝ) (vrr2d : (ℕ → ℝ) → ℕ → ℝ)
    (dims : Option (ℕ × ℕ)) (fac log_prec : ℝ) (dimension : ℕ) (a b : ℤ → ℝ)
    (mesh0 mesh1 mesh2 : ℕ) (weights : ℤ → ℝ) (out0 : ℕ → ℝ) (cache : ℤ → ℝ) :
    DrvResult :=
  let n_comp := env.ncomp
  let nc := env.nf * env.i_ctr * env.j_ctr
  let L := GTOnumint1e_loop env fac_sp vrr2d fac log_prec dimension a b
    mesh0 mesh1 mesh2 weights (fun i => cache i)
    (fun i => cache ((nc * n_comp : ℕ) + i))
  let has_value := L.2
  let gctr : ℕ → ℝ :=
    if has_value then L.1
    else fun n => if n < nc * n_comp then 0 else L.1 n
  let counts : ℕ × ℕ :=
    if is_sph then ((env.i_l * 2 + 1) * env.i_ctr, (env.j_l * 2 + 1) * env.j_ctr)
    else (env.nfi * env.i_ctr, env.nfj * env.j_ctr)
  let d := dims.getD counts
  let nout := d.1 * d.2
  let out : ℕ → ℝ :=
    if has_value then
      fun idx =>
        if idx < nout * n_comp then
          f_c2s (fun k => gctr (nc * (idx / nout) + k)) (idx % nout)
        else out0 idx
    else out0
  ⟨has_value, gctr, out⟩

/-! ### Cache footprint of the execution path -/

/-- The number of cache elements addressed by the execution path for one shell
pair, read off the pointer arithmetic of the source whenever at least one
primitive pair survives screening:
`nc*n_comp` for `gctr` (drv, lines 511-512), then
`lenj + leni + len_g1d + i_prim + j_prim` claimed by the loop (lines 428-433;
the two log-coefficient tables are always fully written, lines 435-440), then
inside `GTOnumint_3d_orth` the regions `xs_exp`/`ys_exp`/`zs_exp`
(`(topl+1)*(mesh0+mesh1+mesh2)`, lines 224-227), `weightyz`
(`(topl+1)*mesh1*mesh2`, line 265) and `weightz` (`(topl+1)^2*mesh2`,
line 266), all of which are written by the dgemm calls in every branch.
Scratch used beyond `weightz` (`_cartesian_components` image buffers,
`GTOplain_vrr2d`) is not counted, so this is a lower bound on the elements the
execution path touches. -/
def drv_exec_cache_elems (mesh0 mesh1 mesh2 : ℕ) (env : ShellPairEnv) : ℕ :=
  let nc := env.nf * env.i_ctr * env.j_ctr
  let l1 := env.i_l + env.j_l + 1
  nc * env.ncomp + loop_cache_offset env
    + l1 * (mesh0 + mesh1 + mesh2)
    + l1 * mesh1 * mesh2
    + l1 * l1 * mesh2

/-! ### Shell metadata and `_max_cache_size` (lines 565-582) -/

/-- The per-shell basis data read through `bas`/`env`: angular momentum,
numbers of primitives and contractions, center, exponents and contraction
coefficients. -/
structure Shell where
  l : ℕ
  nprim : ℕ
  nctr : ℕ
  r : Fin 3 → ℝ
  exps : ℕ → ℝ
  coeffs : ℕ → ℝ

/-- The `CINTEnvVars` produced for a shell pair by the external
`CINTinit_int1e_EnvVars` with the overlap `ng` descriptor.  Modelled from the
spec: the external initialization is a black box; per the data model the
Cartesian component counts are `nfi = _LEN_CART[i_l]`, `nfj = _LEN_CART[j_l]`,
`nf = nfi*nfj`, and the overlap integral has a single tensor component. -/
def envOf (si sj : Shell) : ShellPairEnv where
  i_l := si.l
  j_l := sj.l
  i_ctr := si.nctr
  j_ctr := sj.nctr
  i_prim := si.nprim
  j_prim := sj.nprim
  nfi := _LEN_CART si.l
  nfj := _LEN_CART sj.l
  nf := _LEN_CART si.l * _LEN_CART sj.l
  ncomp := 1
  ri := si.r
  rj := sj.r
  ai := si.exps
  aj := sj.exps
  ci := si.coeffs
  cj := sj.coeffs

/-- `_max_cache_size` (lines 565-582): the sizing query (`intor` with
`out == NULL`, which returns `_cache_size`) evaluated over the diagonal shell
pairs (i,i) of the combined range `[min(ish0,jsh0), max(ish1,jsh1))`, folded
with `MAX` starting from 0. -/
def _max_cache_size (bas : ℕ → Shell) (ish0 ish1 jsh0 jsh1 : ℕ)
    (mesh0 mesh1 mesh2 : ℕ) : ℕ :=
  let i0 := min ish0 jsh0
  let i1 := max ish1 jsh1
  (List.range' i0 (i1 - i0)).foldl
    (fun acc i => max acc (_cache_size mesh0 mesh1 mesh2 (envOf (bas i) (bas i))))
    0

/-! ### Two-center matrix-fill driver (`NUMINT1e_fill2c`, lines 584-638) -/

/-- `NPdsymm_triu(n, mat, hermi)` applied to one `n × n` component.
Modelled from the spec: `NPdsymm_triu` lives in `np_helper` (not part of
src/); per the spec it mirrors the computed upper triangle into the lower
triangle using the matching symmetry — a symmetric copy for
`HERMITIAN`/`SYMMETRIC` and an antisymmetric negation for `ANTIHERMI`.  The
matrix is column-major (F-array): entry (row i, col j) lives at `i + j*n`, and
the strictly lower entries (`i > j`) are overwritten from their transposes. -/
noncomputable def NPdsymm_triu (n : ℕ) (hermi : ℕ) (mat : ℕ → ℝ) : ℕ → ℝ :=
  fun idx =>
    let i := idx % n
    let j := idx / n
    if j < i ∧ idx < n * n then
      (if hermi = ANTIHERMI then -1 else 1) * mat (j + i * n)
    else mat idx

/-- One iteration of the shell-pair loop of `NUMINT1e_fill2c` (lines 613-629)
on the matrix state: pair `ij` is decomposed as `(ish, jsh)`; with
`hermi != PLAIN && ish > jsh` the pair is skipped, otherwise the kernel block
is written at the pair's atomic-orbital offsets in the column-major matrix. -/
noncomputable def fill2c_step (intor : ℕ → ℕ → ℕ → ℕ → ℕ → ℝ)
    (comp hermi ish0 jsh0 njsh naoi naoj : ℕ) (ao_loc : ℕ → ℕ)
    (m : ℕ → ℝ) (ij : ℕ) : ℕ → ℝ :=
  let ish := ij / njsh
  let jsh := ij % njsh
  if hermi ≠ PLAIN ∧ jsh < ish then m
  else
    let i0 := ao_loc (ish + ish0) - ao_loc ish0
    let j0 := ao_loc (jsh + jsh0) - ao_loc jsh0
    let di := ao_loc (ish + ish0 + 1) - ao_loc (ish + ish0)
    let dj := ao_loc (jsh + jsh0 + 1) - ao_loc (jsh + jsh0)
    fun idx =>
      let ic := idx / (naoi * naoj)
      let r := idx % (naoi * naoj)
      let i := r % naoi
      let j := r / naoi
      if ic < comp ∧ i0 ≤ i ∧ i < i0 + di ∧ j0 ≤ j ∧ j < j0 + dj then
        intor ic (ish + ish0) (jsh + jsh0) (i - i0) (j - j0)
      else m idx

/-- The matrix after the (parallel) shell-pair loop of `NUMINT1e_fill2c`,
before symmetrization.  The workers write disjoint blocks, so the parallel
loop is modelled as a sequential fold over the pair index. -/
noncomputable def fill2c_filled (intor : ℕ → ℕ → ℕ → ℕ → ℕ → ℝ)
    (mat0 : ℕ → ℝ) (comp hermi : ℕ) (ish0 ish1 jsh0 jsh1 : ℕ)
    (ao_loc : ℕ → ℕ) : ℕ → ℝ :=
  let nish := ish1 - ish0
  let njsh := jsh1 - jsh0
  let naoi := ao_loc ish1 - ao_loc ish0
  let naoj := ao_loc jsh1 - ao_loc jsh0
  (List.range (nish * njsh)).foldl
    (fill2c_step intor comp hermi ish0 jsh0 njsh naoi naoj ao_loc) mat0

/-- `NUMINT1e_fill2c` (lines 584-638) with the integral kernel `intor` as a
function parameter (as in C): `intor ic ish jsh p q` is the value the kernel
writes for component `ic` at row offset `p`, column offset `q` of the block of
absolute shell pair (ish, jsh).  After the loop (i.e. after the implicit
barrier at the end of the omp region), each of the `comp` components of the
matrix is symmetrized with `NPdsymm_triu` when `hermi != PLAIN`. -/
noncomputable def NUMINT1e_fill2c (intor : ℕ → ℕ → ℕ → ℕ → ℕ → ℝ)
    (mat0 : ℕ → ℝ) (comp hermi : ℕ) (ish0 ish1 jsh0 jsh1 : ℕ)
    (ao_loc : ℕ → ℕ) : ℕ → ℝ :=
  let naoi := ao_loc ish1 - ao_loc ish0
  let filled := fill2c_filled intor mat0 comp hermi ish0 ish1 jsh0 jsh1 ao_loc
  if hermi ≠ PLAIN then
    fun idx =>
      let ic := idx / (naoi * naoi)
      let r := idx % (naoi * naoi)
      if ic < comp then
        NPdsymm_triu naoi hermi (fun s => filled (ic * (naoi * naoi) + s)) r
      else filled idx
  else filled

/-! ### Theorems -/

/-- C3 (counterexample): the claim states an 8-unit safety margin, i.e.
`gto_rcut` would return `sqrt((log|c| - (log_prec - 8))/α)` whenever that
radicand is positive.  At `α = 1`, `l = 0`, `c = 1`, `log_prec = 0` the code
returns `sqrt 7` (its margin is 7 units, line 76: `log_prec -= 7`), not the
claimed `sqrt 8`. -/
theorem gto_rcut_margin_is_not_eight :
    ¬ (gto_rcut 1 0 1 0 =
        if 0 < Real.log |(1 : ℝ)| - (0 - 8) then
          Real.sqrt ((Real.log |(1 : ℝ)| - (0 - 8)) / 1) else 0) := by
  have h7 : gto_rcut 1 0 1 0 = Real.sqrt 7 := by
    simp [gto_rcut]
  simp only [abs_one, Real.log_one, h7]
  norm_num

/-- C3 (amended): for every exponent, angular momentum, coefficient magnitude
and log-precision, `gto_rcut` applies a 7-unit safety margin to `log_prec` and
returns `sqrt((log|c| - (log_prec - 7))/α)` when `log|c| - (log_prec - 7) > 0`,
and 0 otherwise. -/
theorem gto_rcut_margin_seven (alpha : ℝ) (l : ℕ) (c log_prec : ℝ) :
    gto_rcut alpha l c log_prec =
      if 0 < Real.log |c| - (log_prec - 7) then
        Real.sqrt ((Real.log |c| - (log_prec - 7)) / alpha) else 0 := by
  simp [gto_rcut, gt_iff_lt]

/-- C9: for every exponent `α > 0`, angular momentum `l ≥ 0`, nonzero
coefficient magnitude and (finite) log-precision, `gto_rcut` has no error
branch and returns a non-negative value.  (In this exact-real model every
value of `gto_rcut` is a finite real by construction: both branches are.) -/
theorem gto_rcut_nonneg (alpha : ℝ) (l : ℕ) (c log_prec : ℝ)
    (ha : 0 < alpha) (hc : c ≠ 0) : 0 ≤ gto_rcut alpha l c log_prec := by
  unfold gto_rcut
  dsimp only
  split
  · exact Real.sqrt_nonneg _
  · exact le_refl 0

/-- C9 (witness): the hypotheses hold at `α = 1`, `l = 0`, `c = 1`,
`log_prec = 0`, and the theorem applies there. -/
theorem gto_rcut_nonneg_witness :
    0 < (1 : ℝ) ∧ (1 : ℝ) ≠ 0 ∧ 0 ≤ gto_rcut 1 0 1 0 :=
  ⟨by norm_num, by norm_num, gto_rcut_nonneg 1 0 1 0 (by norm_num) (by norm_num)⟩

/-- C6: for every input, `GTOnumint_3d_nonorth` reports the feature as
unavailable and aborts fatally; it never returns an output region (in
particular it never falls back to the result of `GTOnumint_3d_orth`). -/
theorem nonorth_always_fatal (floorl topl : ℕ) (ai aj fac log_prec : ℝ)
    (dimension : ℕ) (a b : ℤ → ℝ) (mesh0 mesh1 mesh2 : ℕ) (weights : ℤ → ℝ)
    (ri rj : Fin 3 → ℝ) (cache : ℤ → ℝ) :
    GTOnumint_3d_nonorth floorl topl ai aj fac log_prec dimension a b
        mesh0 mesh1 mesh2 weights ri rj cache
      = .fatal "GTOnumint_3d_nonorth not available"
    ∧ ∀ o, GTOnumint_3d_nonorth floorl topl ai aj fac log_prec dimension a b
        mesh0 mesh1 mesh2 weights ri rj cache ≠ .ok o := by
  exact ⟨rfl, fun o h => by simp [GTOnumint_3d_nonorth] at h⟩

/-- C7: with a positive fractional scale, the image range `[nimg0, nimg1)`
computed by `_cartesian_components` is empty only when the cutoff radius is
non-positive; whenever `cutoff > 0` it holds at least one image, and in the
non-periodic case it holds exactly one. -/
theorem image_range_invariant (xs_exp0 : ℤ → ℝ) (a xi xij aij : ℝ)
    (periodic : Bool) (nx_per_cell topl : ℕ) (x_frac cutoff heights_inv : ℝ)
    (hh : 0 < heights_inv) :
    ((_cartesian_components xs_exp0 a xi xij aij periodic nx_per_cell topl
        x_frac cutoff heights_inv).nimg1
      - (_cartesian_components xs_exp0 a xi xij aij periodic nx_per_cell topl
        x_frac cutoff heights_inv).nimg0 = 0 → cutoff ≤ 0)
    ∧ (0 < cutoff →
        1 ≤ (_cartesian_components xs_exp0 a xi xij aij periodic nx_per_cell topl
          x_frac cutoff heights_inv).nimg1
          - (_cartesian_components xs_exp0 a xi xij aij periodic nx_per_cell topl
            x_frac cutoff heights_inv).nimg0)
    ∧ (periodic = false →
        (_cartesian_components xs_exp0 a xi xij aij periodic nx_per_cell topl
          x_frac cutoff heights_inv).nimg1
          - (_cartesian_components xs_exp0 a xi xij aij periodic nx_per_cell topl
            x_frac cutoff heights_inv).nimg0 = 1) := by
  have key : 0 < cutoff →
      1 ≤ (_cartesian_components xs_exp0 a xi xij aij periodic nx_per_cell topl
        x_frac cutoff heights_inv).nimg1
        - (_cartesian_components xs_exp0 a xi xij aij periodic nx_per_cell topl
          x_frac cutoff heights_inv).nimg0 := by
    intro hc
    cases periodic with
    | false => simp [_cartesian_components]
    | true =>
        simp only [_cartesian_components, if_true]
        have hlt : x_frac - cutoff * heights_inv < x_frac + cutoff * heights_inv := by
          nlinarith
        have h1 : (⌊x_frac - cutoff * heights_inv⌋ : ℝ) <
            (⌈x_frac + cutoff * heights_inv⌉ : ℝ) :=
          lt_of_le_of_lt (Int.floor_le _)
            (lt_of_lt_of_le hlt (Int.le_ceil _))
        have h2 : ⌊x_frac - cutoff * heights_inv⌋ <
            ⌈x_frac + cutoff * heights_inv⌉ := by exact_mod_cast h1
        omega
  refine ⟨?_, key, ?_⟩
  · intro h0
    by_contra hpos
    push_neg at hpos
    have := key hpos
    omega
  · intro hp
    subst hp
    simp [_cartesian_components]

/-- C7 (witness): the scale hypothesis holds at `heights_inv = 1`, and the
theorem applies at a periodic axis with cutoff 1. -/
theorem image_range_invariant_witness :
    0 < (1 : ℝ) ∧
    ((_cartesian_components (fun _ => 0) 1 0 0 1 true 4 0 0 1 1).nimg1
        - (_cartesian_components (fun _ => 0) 1 0 0 1 true 4 0 0 1 1).nimg0 = 0
      → (1 : ℝ) ≤ 0)
    ∧ (0 < (1 : ℝ) →
        1 ≤ (_cartesian_components (fun _ => 0) 1 0 0 1 true 4 0 0 1 1).nimg1
          - (_cartesian_components (fun _ => 0) 1 0 0 1 true 4 0 0 1 1).nimg0)
    ∧ (true = false →
        (_cartesian_components (fun _ => 0) 1 0 0 1 true 4 0 0 1 1).nimg1
          - (_cartesian_components (fun _ => 0) 1 0 0 1 true 4 0 0 1 1).nimg0 = 1) :=
  ⟨by norm_num, image_range_invariant (fun _ => 0) 1 0 0 1 true 4 0 0 1 1 (by norm_num)⟩

/-! ### The Cartesian buffer ordering (claim C8) -/

/-- The ordering relation of the Cartesian output buffer, as the spec states
it: total angular momentum ascending, then `lx` descending, then `ly`
descending (`lz` implied). -/
def cart_lt (s t : ℕ × ℕ × ℕ) : Prop :=
  s.1 + s.2.1 + s.2.2 < t.1 + t.2.1 + t.2.2
  ∨ (s.1 + s.2.1 + s.2.2 = t.1 + t.2.1 + t.2.2
      ∧ (t.1 < s.1 ∨ (s.1 = t.1 ∧ t.2.1 < s.2.1)))

/-- The set of (lx,ly,lz) triples with total angular momentum in
`[floorl, topl]`. -/
def cartTriples (floorl topl : ℕ) : Finset (ℕ × ℕ × ℕ) :=
  (Finset.range (topl + 1) ×ˢ Finset.range (topl + 1) ×ˢ
      Finset.range (topl + 1)).filter
    (fun t => floorl ≤ t.1 + t.2.1 + t.2.2 ∧ t.1 + t.2.1 + t.2.2 ≤ topl)

/-- A triple appears in the inner double loop for total momentum `l` exactly
when its components sum to `l`. -/
theorem mem_cart_block {l : ℕ} {t : ℕ × ℕ × ℕ} :
    t ∈ cart_block l ↔ t.1 + t.2.1 + t.2.2 = l := by
  unfold cart_block
  simp only [List.mem_flatMap, List.mem_map, List.mem_reverse, List.mem_range]
  constructor
  · rintro ⟨lx, hlx, ly, hly, rfl⟩
    simp only
    omega
  · intro h
    obtain ⟨lx, ly, lz⟩ := t
    simp only at h
    refine ⟨lx, by omega, ly, by omega, ?_⟩
    simp only [Prod.mk.injEq, true_and]
    omega

/-- The inner double loop enumerates its triples strictly in the buffer
order. -/
theorem cart_block_pairwise (l : ℕ) : (cart_block l).Pairwise cart_lt := by
  unfold cart_block
  rw [List.pairwise_flatMap]
  constructor
  · intro lx _
    rw [List.pairwise_map, List.pairwise_reverse]
    refine (List.pairwise_lt_range _).imp_of_mem ?_
    intro a b ha hb hab
    rw [List.mem_range] at ha hb
    exact Or.inr ⟨by simp only; omega, Or.inr ⟨rfl, hab⟩⟩
  · rw [List.pairwise_reverse]
    refine (List.pairwise_lt_range _).imp_of_mem ?_
    intro a b ha hb hab x hx y hy
    rw [List.mem_range] at ha hb
    simp only [List.mem_map, List.mem_reverse, List.mem_range] at hx hy
    obtain ⟨lyx, hlyx, rfl⟩ := hx
    obtain ⟨lyy, hlyy, rfl⟩ := hy
    exact Or.inr ⟨by simp only; omega, Or.inl (by simp only; omega)⟩

/-- The whole enumeration is strictly ordered by the buffer order. -/
theorem cart_order_pairwise (floorl topl : ℕ) :
    (cart_order floorl topl).Pairwise cart_lt := by
  unfold cart_order
  rw [List.pairwise_flatMap]
  refine ⟨fun l _ => cart_block_pairwise l, ?_⟩
  refine (List.pairwise_lt_range' _ _).imp ?_
  intro a b hab
  intro x hx y hy
  rw [mem_cart_block] at hx hy
  exact Or.inl (by omega)

/-- Membership in the enumeration is exactly: total angular momentum in
`[floorl, topl]`. -/
theorem cart_order_mem (floorl topl : ℕ) (t : ℕ × ℕ × ℕ) :
    t ∈ cart_order floorl topl ↔
      floorl ≤ t.1 + t.2.1 + t.2.2 ∧ t.1 + t.2.1 + t.2.2 ≤ topl := by
  unfold cart_order
  simp only [List.mem_flatMap, List.mem_range'_1, mem_cart_block]
  constructor
  · rintro ⟨l, ⟨h0, h1⟩, hsum⟩
    omega
  · rintro ⟨h0, h1⟩
    exact ⟨t.1 + t.2.1 + t.2.2, ⟨h0, by omega⟩, rfl⟩

/-- The buffer order is irreflexive. -/
theorem cart_lt_irrefl (t : ℕ × ℕ × ℕ) : ¬ cart_lt t t := by
  unfold cart_lt
  omega

/-- The enumeration has no repeated triple. -/
theorem cart_order_nodup (floorl topl : ℕ) : (cart_order floorl topl).Nodup :=
  (cart_order_pairwise floorl topl).imp fun h => by
    rintro rfl
    exact cart_lt_irrefl _ h

/-- The number of enumerated triples equals the cardinality of the triple
set. -/
theorem cart_order_length (floorl topl : ℕ) :
    (cart_order floorl topl).length = (cartTriples floorl topl).card := by
  rw [← List.toFinset_card_of_nodup (cart_order_nodup floorl topl)]
  congr 1
  apply Finset.ext
  intro t
  rw [List.mem_toFinset, cart_order_mem]
  simp only [cartTriples, Finset.mem_filter, Finset.mem_product, Finset.mem_range]
  omega

/-- C8: `GTOnumint_3d_orth` writes its output values indexed by (lx,ly,lz)
triples enumerated in the fixed order — total `l` ascending from `floorl` to
`topl`, then `lx` descending, then `ly` descending, `lz` implied — and the
number of values written is exactly the number of such triples:  the output is
the per-triple contraction value mapped over `cart_order`; `cart_order` is
strictly sorted by that order and contains a triple iff its total momentum
lies in `[floorl, topl]`; and the output length equals the cardinality of the
triple set. -/
theorem cart_buffer_ordering (floorl topl : ℕ) (ai aj fac log_prec : ℝ)
    (dimension : ℕ) (a b : ℤ → ℝ) (mesh0 mesh1 mesh2 : ℕ) (weights : ℤ → ℝ)
    (ri rj : Fin 3 → ℝ) (cache : ℤ → ℝ) :
    GTOnumint_3d_orth floorl topl ai aj fac log_prec dimension a b mesh0 mesh1
        mesh2 weights ri rj cache
      = (cart_order floorl topl).map
          (orth_out_value topl ai aj fac log_prec dimension a b mesh0 mesh1 mesh2
            weights ri rj cache)
    ∧ (cart_order floorl topl).Pairwise cart_lt
    ∧ (∀ t, t ∈ cart_order floorl topl ↔
        floorl ≤ t.1 + t.2.1 + t.2.2 ∧ t.1 + t.2.1 + t.2.2 ≤ topl)
    ∧ (GTOnumint_3d_orth floorl topl ai aj fac log_prec dimension a b mesh0 mesh1
        mesh2 weights ri rj cache).length = (cartTriples floorl topl).card :=
  ⟨rfl, cart_order_pairwise floorl topl, cart_order_mem floorl topl, by
    rw [GTOnumint_3d_orth, List.length_map]
    exact cart_order_length floorl topl⟩

/-! ### Cache sizing vs execution (claims C1 and C10) -/

/-- A concrete shell pair exhibiting the cache under-sizing: two s-shells
(`l = 0`), one contraction each, 11 primitives each, unit exponents and
coefficients, coincident centers. -/
noncomputable def envC1 : ShellPairEnv where
  i_l := 0
  j_l := 0
  i_ctr := 1
  j_ctr := 1
  i_prim := 11
  j_prim := 11
  nfi := 1
  nfj := 1
  nf := 1
  ncomp := 1
  ri := fun _ => 0
  rj := fun _ => 0
  ai := fun _ => 1
  aj := fun _ => 1
  ci := fun _ => 1
  cj := fun _ => 1

/-- C1: the sizing query under-estimates the execution path's cache use.  For
the shell pair `envC1` on a 1×1×1 mesh, `_cache_size` returns 29 elements,
but the execution path addresses 31 (its two log-coefficient tables alone need
`i_prim + j_prim = 22` elements against the fixed 20-element allowance), and
the path is really executed: the single primitive-pair class survives
screening (coincident centers, unit coefficients). -/
theorem cache_size_underestimates_exec :
    _cache_size 1 1 1 envC1 = 29
    ∧ drv_exec_cache_elems 1 1 1 envC1 = 31
    ∧ _cache_size 1 1 1 envC1 < drv_exec_cache_elems 1 1 1 envC1
    ∧ ¬ screened_out envC1 0 0 := by
  refine ⟨by decide, by decide, by decide, ?_⟩
  simp only [screened_out, log_prim_max, max_pgto_coeff, square_dist, envC1,
    EXPCUTOFF15]
  norm_num [List.range_succ]

/-- First shell of the C10 counterexample: an s-shell with 8 contractions. -/
noncomputable def shellC10a : Shell :=
  ⟨0, 1, 8, fun _ => 0, fun _ => 1, fun _ => 1⟩

/-- Second shell of the C10 counterexample: a p-shell with 2 contractions. -/
noncomputable def shellC10b : Shell :=
  ⟨1, 1, 2, fun _ => 0, fun _ => 1, fun _ => 1⟩

/-- The two-shell basis of the C10 counterexample. -/
noncomputable def basC10 : ℕ → Shell := fun i => if i = 0 then shellC10a else shellC10b

/-- C10 (counterexample): the diagonal-query maximum does not dominate every
mixed pair.  In the basis `basC10` with slice `[0,2) × [0,2)` and mesh (1,1,2),
the mixed pair (0,1) needs 188 cache elements while the sizing loop over the
diagonal pairs returns only `max 165 180 = 180`. -/
theorem max_cache_size_not_dominating :
    _cache_size 1 1 2 (envOf (basC10 0) (basC10 1)) = 188
    ∧ _max_cache_size basC10 0 2 0 2 1 1 2 = 180
    ∧ ¬ (_cache_size 1 1 2 (envOf (basC10 0) (basC10 1))
          ≤ _max_cache_size basC10 0 2 0 2 1 1 2) := by
  refine ⟨by decide, by decide, by decide⟩

/-- `_LEN_CART` is monotone on the table's domain. -/
theorem _LEN_CART_mono {x y : ℕ} (hxy : x ≤ y) (hy : y ≤ 15) :
    _LEN_CART x ≤ _LEN_CART y := by
  interval_cases y <;> interval_cases x <;> decide

/-- `_CUM_LEN_CART` is monotone on the table's domain. -/
theorem _CUM_LEN_CART_mono {x y : ℕ} (hxy : x ≤ y) (hy : y ≤ 15) :
    _CUM_LEN_CART x ≤ _CUM_LEN_CART y := by
  interval_cases y <;> interval_cases x <;> decide

/-- With equal contraction counts, raising either angular momentum (within the
table range) cannot shrink `_cache_size`: every term of the formula is
monotone. -/
theorem cache_size_mono (mesh0 mesh1 mesh2 : ℕ) (sa sb sc sd : Shell)
    (hctr1 : sa.nctr = sc.nctr) (hctr2 : sb.nctr = sd.nctr)
    (hla : sa.l ≤ sc.l) (hlb : sb.l ≤ sd.l) (hlc : sc.l ≤ 7) (hld : sd.l ≤ 7) :
    _cache_size mesh0 mesh1 mesh2 (envOf sa sb)
      ≤ _cache_size mesh0 mesh1 mesh2 (envOf sc sd) := by
  have hL1 : _LEN_CART sa.l ≤ _LEN_CART sc.l := _LEN_CART_mono hla (by omega)
  have hL2 : _LEN_CART sb.l ≤ _LEN_CART sd.l := _LEN_CART_mono hlb (by omega)
  have hC : _CUM_LEN_CART (sa.l + sb.l) ≤ _CUM_LEN_CART (sc.l + sd.l) :=
    _CUM_LEN_CART_mono (by omega) (by omega)
  simp only [_cache_size, envOf, hctr1, hctr2]
  have h1 : sa.l + sb.l + 1 ≤ sc.l + sd.l + 1 := by omega
  gcongr

/-- The `MAX` fold never drops below its accumulator. -/
theorem foldl_max_le_init (f : ℕ → ℕ) :
    ∀ (l : List ℕ) (a : ℕ), a ≤ l.foldl (fun acc i => max acc (f i)) a := by
  intro l
  induction l with
  | nil => intro a; exact Nat.le_refl a
  | cons hd tl ih => intro a; exact le_trans (Nat.le_max_left _ _) (ih _)

/-- The `MAX` fold dominates every element it visits. -/
theorem foldl_max_le_of_mem (f : ℕ → ℕ) :
    ∀ (l : List ℕ) (a k : ℕ), k ∈ l →
      f k ≤ l.foldl (fun acc i => max acc (f i)) a := by
  intro l
  induction l with
  | nil => intro a k h; cases h
  | cons hd tl ih =>
      intro a k h
      rcases List.mem_cons.mp h with h | h
      · subst h
        exact le_trans (Nat.le_max_right _ _) (foldl_max_le_init f tl _)
      · exact ih _ _ h

/-- Any diagonal value inside the combined range is dominated by
`_max_cache_size`. -/
theorem le_max_cache_size (bas : ℕ → Shell) (ish0 ish1 jsh0 jsh1 : ℕ)
    (mesh0 mesh1 mesh2 : ℕ) (k : ℕ) (hk0 : min ish0 jsh0 ≤ k)
    (hk1 : k < max ish1 jsh1) :
    _cache_size mesh0 mesh1 mesh2 (envOf (bas k) (bas k))
      ≤ _max_cache_size bas ish0 ish1 jsh0 jsh1 mesh0 mesh1 mesh2 := by
  unfold _max_cache_size
  have hmem : k ∈ List.range' (min ish0 jsh0) (max ish1 jsh1 - min ish0 jsh0) := by
    rw [List.mem_range'_1]
    omega
  exact foldl_max_le_of_mem
    (fun i => _cache_size mesh0 mesh1 mesh2 (envOf (bas i) (bas i))) _ 0 k hmem

/-- C10 (amended): for every mixed shell pair of the rectangular slice whose
two shells have equal contraction counts (and angular momenta within the
table's domain `l ≤ 7`), the per-thread scratch size computed by
`_max_cache_size` over the diagonal pairs of the combined range dominates
`_cache_size` of the mixed pair: the mixed value is bounded by the diagonal
value at whichever shell has the larger angular momentum, every term of the
formula being monotone in the angular momenta when the contraction counts
agree. -/
theorem max_cache_size_dominates_equal_ctr (bas : ℕ → Shell)
    (ish0 ish1 jsh0 jsh1 ish jsh mesh0 mesh1 mesh2 : ℕ)
    (hi0 : ish0 ≤ ish) (hi1 : ish < ish1) (hj0 : jsh0 ≤ jsh) (hj1 : jsh < jsh1)
    (hctr : (bas ish).nctr = (bas jsh).nctr)
    (hli : (bas ish).l ≤ 7) (hlj : (bas jsh).l ≤ 7) :
    _cache_size mesh0 mesh1 mesh2 (envOf (bas ish) (bas jsh))
      ≤ _max_cache_size bas ish0 ish1 jsh0 jsh1 mesh0 mesh1 mesh2 := by
  rcases le_total (bas ish).l (bas jsh).l with h | h
  · exact le_trans
      (cache_size_mono mesh0 mesh1 mesh2 _ _ _ _ hctr rfl h (le_refl _) hlj hlj)
      (le_max_cache_size bas ish0 ish1 jsh0 jsh1 mesh0 mesh1 mesh2 jsh
        (by omega) (by omega))
  · exact le_trans
      (cache_size_mono mesh0 mesh1 mesh2 _ _ _ _ rfl hctr.symm (le_refl _) h hli hli)
      (le_max_cache_size bas ish0 ish1 jsh0 jsh1 mesh0 mesh1 mesh2 ish
        (by omega) (by omega))

/-- C10 (witness): the hypotheses hold for the diagonal slice of a one-shell
basis, and the amended theorem applies there. -/
theorem max_cache_size_dominates_witness :
    _cache_size 1 1 1 (envOf (basC10 1) (basC10 1))
      ≤ _max_cache_size (fun i => basC10 1) 0 1 0 1 1 1 1 := by
  have h := max_cache_size_dominates_equal_ctr (fun i => basC10 1) 0 1 0 1 0 0 1 1 1
    (by norm_num) (by norm_num) (by norm_num) (by norm_num) rfl
    (by norm_num [basC10, shellC10b]) (by norm_num [basC10, shellC10b])
  exact h

/-! ### The y-stage full-range contraction (claim C5) -/

/-- The full-range y-axis contraction as the claim states it: for x-power
`lx`, y-power `ly` and z-index `iz`, the sum over all `mesh[1]` grid points
`iy` of the x-contracted intermediate `weightyz[lx][iy][iz]` times the y
exponential-power value `ys_exp[ly*mesh[1] + iy]` — i.e. the y
exponential-power array used from the start of its row, over the whole
cell. -/
noncomputable def y_full_contract_ref (weightyz ys_exp : ℤ → ℝ)
    (mesh1 mesh2 : ℕ) (lx ly : ℕ) (iz : ℤ) : ℝ :=
  ∑ iy ∈ Finset.range mesh1,
    weightyz ((lx : ℤ) * ((mesh1 : ℤ) * mesh2) + (iy : ℤ) * mesh2 + iz)
      * ys_exp ((ly : ℤ) * mesh1 + iy)

/-- C5 (divergence evaluation): in the full-range branch (y image count 3,
which is neither 1 nor the two-image non-wrapping case) with `mesh = (·,2,1)`,
`topl = 0`, `ny0 = 1`, constant-1 `weightyz`, prior `weightz` zero and
`ys_exp = (0,1,1,...)`, the value the code computes for `lx = ly = iz = 0`
(the `weightz` entry at flat offset 0) is 2 — it contracts against
`ys_exp[ny0..ny0+mesh1)`, the row shifted by `ny0` — whereas the claimed
full-range contraction `y_full_contract_ref` gives 1. -/
theorem y_stage_full_range_uses_shifted_row :
    y_stage (fun _ => 1) (fun i => if i = 0 then 0 else 1) 2 1 0 3 1 1
        (fun _ => 0) 0 = 2
    ∧ y_full_contract_ref (fun _ => 1) (fun i => if i = 0 then 0 else 1)
        2 1 0 0 0 = 1
    ∧ y_stage (fun _ => 1) (fun i => if i = 0 then 0 else 1) 2 1 0 3 1 1
        (fun _ => 0) 0
      ≠ y_full_contract_ref (fun _ => 1) (fun i => if i = 0 then 0 else 1)
        2 1 0 0 0 := by
  have hcode : y_stage (fun _ => 1) (fun i => if i = 0 then 0 else 1) 2 1 0 3 1 1
      (fun _ => 0) 0 = 2 := by
    simp only [y_stage, _has_overlap]
    norm_num [List.range_succ, dgemm_nn]
    rw [(by rfl : Int.toNat 2 = 2)]
    rw [Finset.sum_range_succ, Finset.sum_range_succ, Finset.sum_range_zero]
    norm_num
  have href : y_full_contract_ref (fun _ => 1) (fun i => if i = 0 then 0 else 1)
      2 1 0 0 0 = 1 := by
    simp only [y_full_contract_ref]
    norm_num [Finset.sum_range_succ]
  exact ⟨hcode, href, by rw [hcode, href]; norm_num⟩

/-! ### Screening and the empty-contribution flags (claim C2) -/

/-- The `iempty` flag after the inner primitive loop: cleared exactly when the
initial flag was cleared or some visited primitive pair survived screening. -/
theorem prim_i_loop_flag (env : ShellPairEnv) (fac1 log_prec : ℝ)
    (dimension : ℕ) (a b : ℤ → ℝ) (mesh0 mesh1 mesh2 : ℕ) (weights : ℤ → ℝ)
    (cache : ℤ → ℝ) (jp : ℕ) (init : (ℕ → ℝ) × Bool) :
    ((prim_i_loop env fac1 log_prec dimension a b mesh0 mesh1 mesh2 weights
        cache jp init).2 = false)
      ↔ (init.2 = false ∨ ∃ ip < env.i_prim, ¬ screened_out env ip jp) := by
  unfold prim_i_loop
  have gen : ∀ (l : List ℕ) (init : (ℕ → ℝ) × Bool),
      ((l.foldl (fun st ip =>
          if screened_out env ip jp then st
          else
            let aij := env.ai ip + env.aj jp
            let eij := env.ai ip * env.aj jp / aij * square_dist env.ri env.rj
            let logcc := log_prim_max env true ip + log_prim_max env false jp
            let fac1i := fac1 * Real.exp (-eij)
            let g := GTOnumint_3d_orth env.i_l (env.i_l + env.j_l) (env.ai ip)
              (env.aj jp) fac1i (logcc + log_prec) dimension a b mesh0 mesh1 mesh2
              weights env.ri env.rj (fun i => cache (loop_cache_offset env + i))
            (plain_prim_to_ctr st.1 (len_g1d env) (fun k => g.getD k 0)
              env.i_prim env.i_ctr (fun k => env.ci (ip + k)) st.2, false)) init).2
        = false)
      ↔ (init.2 = false ∨ ∃ ip ∈ l, ¬ screened_out env ip jp) := by
    intro l
    induction l with
    | nil => intro init; simp
    | cons hd tl ih =>
        intro init
        rw [List.foldl_cons, ih]
        by_cases h : screened_out env hd jp
        · rw [if_pos h]
          constructor
          · rintro (h0 | ⟨ip, hip, hs⟩)
            · exact Or.inl h0
            · exact Or.inr ⟨ip, List.mem_cons_of_mem _ hip, hs⟩
          · rintro (h0 | ⟨ip, hip, hs⟩)
            · exact Or.inl h0
            · rcases List.mem_cons.mp hip with rfl | hip
              · exact absurd h hs
              · exact Or.inr ⟨ip, hip, hs⟩
        · rw [if_neg h]
          constructor
          · intro _
            exact Or.inr ⟨hd, List.mem_cons_self hd tl, h⟩
          · intro _
            exact Or.inl rfl
  rw [gen]
  constructor
  · rintro (h0 | ⟨ip, hip, hs⟩)
    · exact Or.inl h0
    · exact Or.inr ⟨ip, List.mem_range.mp hip, hs⟩
  · rintro (h0 | ⟨ip, hip, hs⟩)
    · exact Or.inl h0
    · exact Or.inr ⟨ip, List.mem_range.mpr hip, hs⟩

/-- The `jempty` flag after the outer primitive loop: cleared exactly when
some primitive pair survived screening. -/
theorem prim_loops_flag (env : ShellPairEnv) (fac1 log_prec : ℝ)
    (dimension : ℕ) (a b : ℤ → ℝ) (mesh0 mesh1 mesh2 : ℕ) (weights : ℤ → ℝ)
    (cache : ℤ → ℝ) :
    ((prim_loops env fac1 log_prec dimension a b mesh0 mesh1 mesh2 weights
        cache).2.2 = false)
      ↔ ∃ jp < env.j_prim, ∃ ip < env.i_prim, ¬ screened_out env ip jp := by
  unfold prim_loops
  have gen : ∀ (l : List ℕ) (init : (ℕ → ℝ) × (ℕ → ℝ) × Bool),
      ((l.foldl (prim_j_step env fac1 log_prec dimension a b mesh0 mesh1 mesh2
          weights cache) init).2.2 = false)
        ↔ (init.2.2 = false
            ∨ ∃ jp ∈ l, ∃ ip < env.i_prim, ¬ screened_out env ip jp) := by
    intro l
    induction l with
    | nil => intro init; simp
    | cons hd tl ih =>
        intro init
        rw [List.foldl_cons, ih]
        by_cases h : ∃ ip < env.i_prim, ¬ screened_out env ip hd
        · have hin : (prim_i_loop env fac1 log_prec dimension a b mesh0 mesh1
              mesh2 weights cache hd (init.2.1, true)).2 = false := by
            rw [prim_i_loop_flag]
            exact Or.inr h
          simp only [prim_j_step]
          rw [if_pos hin]
          constructor
          · intro _
            exact Or.inr ⟨hd, List.mem_cons_self hd tl, h⟩
          · intro _
            exact Or.inl rfl
        · have hin : ¬ ((prim_i_loop env fac1 log_prec dimension a b mesh0 mesh1
              mesh2 weights cache hd (init.2.1, true)).2 = false) := by
            rw [prim_i_loop_flag]
            rintro (h0 | hex)
            · exact Bool.noConfusion h0
            · exact h hex
          simp only [prim_j_step]
          rw [if_neg hin]
          constructor
          · rintro (h0 | ⟨jp, hjp, hx⟩)
            · exact Or.inl h0
            · exact Or.inr ⟨jp, List.mem_cons_of_mem _ hjp, hx⟩
          · rintro (h0 | ⟨jp, hjp, hx⟩)
            · exact Or.inl h0
            · rcases List.mem_cons.mp hjp with rfl | hjp
              · exact absurd hx h
              · exact Or.inr ⟨jp, hjp, hx⟩
  rw [gen]
  constructor
  · rintro (h0 | ⟨jp, hjp, hx⟩)
    · exact Bool.noConfusion h0
    · exact ⟨jp, List.mem_range.mp hjp, hx⟩
  · rintro ⟨jp, hjp, hx⟩
    exact Or.inr ⟨jp, List.mem_range.mpr hjp, hx⟩

/-- C2: `GTOnumint1e_loop` returns false exactly when every (ip,jp) primitive
pair was screened out; and in that case `GTO_numint1e_drv` zero-fills the
loop's output block (the `gctr` region holds zeros, not stale cache contents)
and itself returns 0 (false). -/
theorem loop_false_iff_all_screened (env : ShellPairEnv) (is_sph : Bool)
    (f_c2s : (ℕ → ℝ) → ℕ → ℝ) (fac_sp : ℕ → ℝ) (vrr2d : (ℕ → ℝ) → ℕ → ℝ)
    (dims : Option (ℕ × ℕ)) (fac log_prec : ℝ) (dimension : ℕ) (a b : ℤ → ℝ)
    (mesh0 mesh1 mesh2 : ℕ) (weights : ℤ → ℝ) (out0 gout0 : ℕ → ℝ)
    (cache : ℤ → ℝ) :
    ((GTOnumint1e_loop env fac_sp vrr2d fac log_prec dimension a b mesh0 mesh1
        mesh2 weights out0 cache).2 = false
      ↔ ∀ ip < env.i_prim, ∀ jp < env.j_prim, screened_out env ip jp)
    ∧ ((∀ ip < env.i_prim, ∀ jp < env.j_prim, screened_out env ip jp) →
        (GTO_numint1e_drv env is_sph f_c2s fac_sp vrr2d dims fac log_prec
            dimension a b mesh0 mesh1 mesh2 weights gout0 cache).has_value = false
        ∧ ∀ n < env.nf * env.i_ctr * env.j_ctr * env.ncomp,
            (GTO_numint1e_drv env is_sph f_c2s fac_sp vrr2d dims fac log_prec
              dimension a b mesh0 mesh1 mesh2 weights gout0 cache).gctr n = 0) := by
  have key : ∀ (cache' : ℤ → ℝ),
      ((prim_loops env (fac * fac_sp env.i_l * fac_sp env.j_l) log_prec dimension
          a b mesh0 mesh1 mesh2 weights cache').2.2 = true)
        ↔ ∀ ip < env.i_prim, ∀ jp < env.j_prim, screened_out env ip jp := by
    intro cache'
    have hflag := prim_loops_flag env (fac * fac_sp env.i_l * fac_sp env.j_l)
      log_prec dimension a b mesh0 mesh1 mesh2 weights cache'
    constructor
    · intro hb ip hip jp hjp
      by_contra hs
      have := hflag.mpr ⟨jp, hjp, ip, hip, hs⟩
      rw [hb] at this
      exact Bool.noConfusion this
    · intro hall
      rcases hb : (prim_loops env (fac * fac_sp env.i_l * fac_sp env.j_l)
          log_prec dimension a b mesh0 mesh1 mesh2 weights cache').2.2 with _ | _
      · obtain ⟨jp, hjp, ip, hip, hs⟩ := hflag.mp hb
        exact absurd (hall ip hip jp hjp) hs
      · rfl
  constructor
  · have h2 : (GTOnumint1e_loop env fac_sp vrr2d fac log_prec dimension a b
        mesh0 mesh1 mesh2 weights out0 cache).2
      = !(prim_loops env (fac * fac_sp env.i_l * fac_sp env.j_l) log_prec
          dimension a b mesh0 mesh1 mesh2 weights cache).2.2 := rfl
    rw [h2, Bool.not_eq_false']
    exact key cache
  · intro hall
    have hkey := (key (fun i => cache
      (((env.nf * env.i_ctr * env.j_ctr) * env.ncomp : ℕ) + i))).mpr hall
    have hhv : (GTO_numint1e_drv env is_sph f_c2s fac_sp vrr2d dims fac log_prec
        dimension a b mesh0 mesh1 mesh2 weights gout0 cache).has_value
      = !(prim_loops env (fac * fac_sp env.i_l * fac_sp env.j_l) log_prec
          dimension a b mesh0 mesh1 mesh2 weights (fun i => cache
            (((env.nf * env.i_ctr * env.j_ctr) * env.ncomp : ℕ) + i))).2.2 := rfl
    have hhvf : (GTO_numint1e_drv env is_sph f_c2s fac_sp vrr2d dims fac log_prec
        dimension a b mesh0 mesh1 mesh2 weights gout0 cache).has_value = false := by
      rw [hhv, hkey]
      rfl
    refine ⟨hhvf, ?_⟩
    intro n hn
    set L := GTOnumint1e_loop env fac_sp vrr2d fac log_prec dimension a b mesh0
      mesh1 mesh2 weights (fun i => cache i) (fun i => cache
        (((env.nf * env.i_ctr * env.j_ctr) * env.ncomp : ℕ) + i)) with hL
    have hLf : L.2 = false := by
      have h0 : L.2 = !(prim_loops env (fac * fac_sp env.i_l * fac_sp env.j_l)
          log_prec dimension a b mesh0 mesh1 mesh2 weights (fun i => cache
            (((env.nf * env.i_ctr * env.j_ctr) * env.ncomp : ℕ) + i))).2.2 := rfl
      rw [h0, hkey]
      rfl
    have hgeq : (GTO_numint1e_drv env is_sph f_c2s fac_sp vrr2d dims fac log_prec
        dimension a b mesh0 mesh1 mesh2 weights gout0 cache).gctr
      = if L.2 = true then L.1
        else fun m =>
          if m < env.nf * env.i_ctr * env.j_ctr * env.ncomp then 0 else L.1 m := rfl
    rw [hgeq, hLf]
    simp only [Bool.false_eq_true, if_false]
    rw [if_pos hn]

/-- A shell pair whose only primitive pair is screened out: centers 10 Bohr
apart along x, unit exponents and coefficients, so `eij = 50 > EXPCUTOFF15`. -/
noncomputable def envC2 : ShellPairEnv where
  i_l := 0
  j_l := 0
  i_ctr := 1
  j_ctr := 1
  i_prim := 1
  j_prim := 1
  nfi := 1
  nfj := 1
  nf := 1
  ncomp := 1
  ri := fun _ => 0
  rj := fun k => if k = 0 then 10 else 0
  ai := fun _ => 1
  aj := fun _ => 1
  ci := fun _ => 1
  cj := fun _ => 1

/-- C2 (witness): for the fully screened shell pair `envC2` (with stale prior
output 5 and stale cache 7), the loop reports no value, and the driver returns
0 with a zero-filled `gctr` block. -/
theorem loop_false_iff_all_screened_witness :
    (GTOnumint1e_loop envC2 (fun _ => 1) (fun g n => g n) 1 0 0 (fun _ => 1)
        (fun _ => 1) 1 1 1 (fun _ => 1) (fun _ => 5) (fun _ => 7)).2 = false
    ∧ (GTO_numint1e_drv envC2 false (fun g n => g n) (fun _ => 1) (fun g n => g n)
        none 1 0 0 (fun _ => 1) (fun _ => 1) 1 1 1 (fun _ => 1) (fun _ => 5)
        (fun _ => 7)).has_value = false
    ∧ (GTO_numint1e_drv envC2 false (fun g n => g n) (fun _ => 1) (fun g n => g n)
        none 1 0 0 (fun _ => 1) (fun _ => 1) 1 1 1 (fun _ => 1) (fun _ => 5)
        (fun _ => 7)).gctr 0 = 0 := by
  have hall : ∀ ip < envC2.i_prim, ∀ jp < envC2.j_prim, screened_out envC2 ip jp := by
    intro ip hip jp hjp
    have hi1 : envC2.i_prim = 1 := rfl
    have hj1 : envC2.j_prim = 1 := rfl
    have hip0 : ip = 0 := by omega
    have hjp0 : jp = 0 := by omega
    subst hip0
    subst hjp0
    simp only [screened_out, log_prim_max, max_pgto_coeff, square_dist, envC2,
      EXPCUTOFF15]
    norm_num [List.range_succ, show ¬ (1 : Fin 3) = 0 by decide,
      show ¬ (2 : Fin 3) = 0 by decide]
  have h := loop_false_iff_all_screened envC2 false (fun g n => g n)
    (fun _ => 1) (fun g n => g n) none 1 0 0 (fun _ => 1) (fun _ => 1) 1 1 1
    (fun _ => 1) (fun _ => 5) (fun _ => 5) (fun _ => 7)
  exact ⟨h.1.mpr hall, (h.2 hall).1, (h.2 hall).2 0 (by decide)⟩

/-! ### Fill modes and symmetrization (claim C4) -/

/-- Quotient of `b*m + a` by `m` when `a < m`. -/
theorem mul_add_div_of_lt {m b a : ℕ} (h : a < m) : (b * m + a) / m = b := by
  rw [Nat.mul_comm b m, Nat.mul_add_div (by omega), Nat.div_eq_of_lt h, Nat.add_zero]

/-- Remainder of `b*m + a` by `m` when `a < m`. -/
theorem mul_add_mod_of_lt {m b a : ℕ} (h : a < m) : (b * m + a) % m = a := by
  rw [Nat.mul_comm b m, Nat.mul_add_mod, Nat.mod_eq_of_lt h]

/-- The value of the symmetrized matrix at component `ic`, row `i`, column
`j` (flat index `ic*n² + j*n + i`, column-major): the strictly lower entries
hold the (possibly negated) transposed loop result, all others hold the loop
result. -/
theorem fill2c_entry (intor : ℕ → ℕ → ℕ → ℕ → ℕ → ℝ) (mat0 : ℕ → ℝ)
    (comp hermi ish0 ish1 jsh0 jsh1 : ℕ) (ao_loc : ℕ → ℕ)
    (hne : hermi ≠ PLAIN) (ic i j : ℕ) (hic : ic < comp)
    (hi : i < ao_loc ish1 - ao_loc ish0) (hj : j < ao_loc ish1 - ao_loc ish0) :
    NUMINT1e_fill2c intor mat0 comp hermi ish0 ish1 jsh0 jsh1 ao_loc
        (ic * ((ao_loc ish1 - ao_loc ish0) * (ao_loc ish1 - ao_loc ish0))
          + (j * (ao_loc ish1 - ao_loc ish0) + i))
      = if j < i then
          (if hermi = ANTIHERMI then -1 else 1)
            * fill2c_filled intor mat0 comp hermi ish0 ish1 jsh0 jsh1 ao_loc
              (ic * ((ao_loc ish1 - ao_loc ish0) * (ao_loc ish1 - ao_loc ish0))
                + (j + i * (ao_loc ish1 - ao_loc ish0)))
        else fill2c_filled intor mat0 comp hermi ish0 ish1 jsh0 jsh1 ao_loc
          (ic * ((ao_loc ish1 - ao_loc ish0) * (ao_loc ish1 - ao_loc ish0))
            + (j * (ao_loc ish1 - ao_loc ish0) + i)) := by
  set n := ao_loc ish1 - ao_loc ish0 with hn
  have hr : j * n + i < n * n := by
    calc j * n + i < j * n + n := by omega
    _ = (j + 1) * n := by ring
    _ ≤ n * n := Nat.mul_le_mul_right n (by omega)
  simp only [NUMINT1e_fill2c]
  rw [if_pos hne]
  simp only [← hn]
  rw [mul_add_div_of_lt hr, mul_add_mod_of_lt hr]
  rw [if_pos hic]
  simp only [NPdsymm_triu]
  rw [mul_add_mod_of_lt hi, mul_add_div_of_lt hi]
  by_cases hji : j < i
  · rw [if_pos ⟨hji, hr⟩, if_pos hji]
  · rw [if_neg ?b, if_neg hji]
    rintro ⟨h1, h2⟩
    exact hji h1

/-- C4 (counterexample): the claim's ANTIHERMI clause `M[i,j] == -M[j,i]` for
all i,j in range fails on the diagonal.  With a single one-orbital shell,
`comp = 1`, a kernel writing 1 and a zero prior matrix, the filled matrix has
`M[0,0] = 1`, and `1 ≠ -1`: the mirror step only overwrites the strictly
lower triangle, so nothing forces the diagonal to vanish. -/
theorem fill2c_antihermi_diagonal_counterexample :
    NUMINT1e_fill2c (fun _ _ _ _ _ => 1) (fun _ => 0) 1 ANTIHERMI 0 1 0 1
        (fun k => k) 0 = 1
    ∧ ¬ (NUMINT1e_fill2c (fun _ _ _ _ _ => 1) (fun _ => 0) 1 ANTIHERMI 0 1 0 1
          (fun k => k) 0
        = - NUMINT1e_fill2c (fun _ _ _ _ _ => 1) (fun _ => 0) 1 ANTIHERMI 0 1 0 1
          (fun k => k) 0) := by
  have h1 : NUMINT1e_fill2c (fun _ _ _ _ _ => 1) (fun _ => 0) 1 ANTIHERMI 0 1 0 1
      (fun k => k) 0 = 1 := by
    norm_num [NUMINT1e_fill2c, fill2c_filled, fill2c_step, NPdsymm_triu,
      ANTIHERMI, PLAIN, List.range_succ]
  refine ⟨h1, ?_⟩
  rw [h1]
  norm_num

/-- C4 (amended): in `NUMINT1e_fill2c` with fill mode HERMITIAN, ANTIHERMI or
SYMMETRIC, the integral kernel's values matter only for shell pairs with
shell-i-index ≤ shell-j-index (the loop skips the strict lower shell
triangle); after the loop, the mirror step makes the final matrix satisfy
`M[i,j] = M[j,i]` for all i,j in range in the HERMITIAN/SYMMETRIC modes,
and `M[i,j] = -M[j,i]` for all i ≠ j in the ANTIHERMI mode (the diagonal is
left as the kernel computed it). -/
theorem fill2c_triangular_mirror (intor : ℕ → ℕ → ℕ → ℕ → ℕ → ℝ)
    (mat0 : ℕ → ℝ) (comp hermi ish0 ish1 jsh0 jsh1 : ℕ) (ao_loc : ℕ → ℕ) :
    (hermi ≠ PLAIN → ∀ intor' : ℕ → ℕ → ℕ → ℕ → ℕ → ℝ,
        (∀ ic is js p q, is ≤ js →
          intor ic (is + ish0) (js + jsh0) p q
            = intor' ic (is + ish0) (js + jsh0) p q) →
        NUMINT1e_fill2c intor mat0 comp hermi ish0 ish1 jsh0 jsh1 ao_loc
          = NUMINT1e_fill2c intor' mat0 comp hermi ish0 ish1 jsh0 jsh1 ao_loc)
    ∧ ((hermi = HERMITIAN ∨ hermi = SYMMETRIC) →
        ∀ ic i j, ic < comp → i < ao_loc ish1 - ao_loc ish0 →
          j < ao_loc ish1 - ao_loc ish0 →
          NUMINT1e_fill2c intor mat0 comp hermi ish0 ish1 jsh0 jsh1 ao_loc
              (ic * ((ao_loc ish1 - ao_loc ish0) * (ao_loc ish1 - ao_loc ish0))
                + (j * (ao_loc ish1 - ao_loc ish0) + i))
            = NUMINT1e_fill2c intor mat0 comp hermi ish0 ish1 jsh0 jsh1 ao_loc
              (ic * ((ao_loc ish1 - ao_loc ish0) * (ao_loc ish1 - ao_loc ish0))
                + (i * (ao_loc ish1 - ao_loc ish0) + j)))
    ∧ (hermi = ANTIHERMI →
        ∀ ic i j, ic < comp → i < ao_loc ish1 - ao_loc ish0 →
          j < ao_loc ish1 - ao_loc ish0 → i ≠ j →
          NUMINT1e_fill2c intor mat0 comp hermi ish0 ish1 jsh0 jsh1 ao_loc
              (ic * ((ao_loc ish1 - ao_loc ish0) * (ao_loc ish1 - ao_loc ish0))
                + (j * (ao_loc ish1 - ao_loc ish0) + i))
            = - NUMINT1e_fill2c intor mat0 comp hermi ish0 ish1 jsh0 jsh1 ao_loc
              (ic * ((ao_loc ish1 - ao_loc ish0) * (ao_loc ish1 - ao_loc ish0))
                + (i * (ao_loc ish1 - ao_loc ish0) + j))) := by
  refine ⟨?_, ?_, ?_⟩
  · intro hne intor' hagree
    have hstep : ∀ (m : ℕ → ℝ) (ij : ℕ),
        fill2c_step intor comp hermi ish0 jsh0 (jsh1 - jsh0)
            (ao_loc ish1 - ao_loc ish0) (ao_loc jsh1 - ao_loc jsh0) ao_loc m ij
          = fill2c_step intor' comp hermi ish0 jsh0 (jsh1 - jsh0)
            (ao_loc ish1 - ao_loc ish0) (ao_loc jsh1 - ao_loc jsh0) ao_loc m ij := by
      intro m ij
      simp only [fill2c_step]
      by_cases hskip : hermi ≠ PLAIN ∧ ij % (jsh1 - jsh0) < ij / (jsh1 - jsh0)
      · rw [if_pos hskip, if_pos hskip]
      · rw [if_neg hskip, if_neg hskip]
        have hle : ij / (jsh1 - jsh0) ≤ ij % (jsh1 - jsh0) := by
          by_contra hlt
          exact hskip ⟨hne, by omega⟩
        funext idx
        split_ifs with hc
        · exact hagree _ _ _ _ _ hle
        · rfl
    have hfold : ∀ (l : List ℕ) (m : ℕ → ℝ),
        l.foldl (fill2c_step intor comp hermi ish0 jsh0 (jsh1 - jsh0)
            (ao_loc ish1 - ao_loc ish0) (ao_loc jsh1 - ao_loc jsh0) ao_loc) m
          = l.foldl (fill2c_step intor' comp hermi ish0 jsh0 (jsh1 - jsh0)
            (ao_loc ish1 - ao_loc ish0) (ao_loc jsh1 - ao_loc jsh0) ao_loc) m := by
      intro l
      induction l with
      | nil => intro m; rfl
      | cons hd tl ih =>
          intro m
          rw [List.foldl_cons, List.foldl_cons, hstep, ih]
    simp only [NUMINT1e_fill2c, fill2c_filled]
    rw [hfold]
  · intro hmode ic i j hic hi hj
    have hne : hermi ≠ PLAIN := by
      rcases hmode with rfl | rfl <;> decide
    have hns : hermi ≠ ANTIHERMI := by
      rcases hmode with rfl | rfl <;> decide
    rcases lt_trichotomy i j with hij | rfl | hij
    · rw [fill2c_entry intor mat0 comp hermi ish0 ish1 jsh0 jsh1 ao_loc hne
        ic i j hic hi hj]
      rw [fill2c_entry intor mat0 comp hermi ish0 ish1 jsh0 jsh1 ao_loc hne
        ic j i hic hj hi]
      rw [if_neg (show ¬ j < i by omega), if_pos hij, if_neg hns, one_mul,
        Nat.add_comm i (j * (ao_loc ish1 - ao_loc ish0))]
    · rfl
    · rw [fill2c_entry intor mat0 comp hermi ish0 ish1 jsh0 jsh1 ao_loc hne
        ic i j hic hi hj]
      rw [fill2c_entry intor mat0 comp hermi ish0 ish1 jsh0 jsh1 ao_loc hne
        ic j i hic hj hi]
      rw [if_pos hij, if_neg (show ¬ i < j by omega), if_neg hns, one_mul,
        Nat.add_comm j (i * (ao_loc ish1 - ao_loc ish0))]
  · intro hmode ic i j hic hi hj hij
    subst hmode
    have hne : ANTIHERMI ≠ PLAIN := by decide
    rcases lt_trichotomy i j with hlt | heq | hlt
    · rw [fill2c_entry intor mat0 comp ANTIHERMI ish0 ish1 jsh0 jsh1 ao_loc hne
        ic i j hic hi hj]
      rw [fill2c_entry intor mat0 comp ANTIHERMI ish0 ish1 jsh0 jsh1 ao_loc hne
        ic j i hic hj hi]
      rw [if_neg (show ¬ j < i by omega), if_pos hlt,
        if_pos (rfl : ANTIHERMI = ANTIHERMI),
        Nat.add_comm i (j * (ao_loc ish1 - ao_loc ish0))]
      ring
    · exact absurd heq hij
    · rw [fill2c_entry intor mat0 comp ANTIHERMI ish0 ish1 jsh0 jsh1 ao_loc hne
        ic i j hic hi hj]
      rw [fill2c_entry intor mat0 comp ANTIHERMI ish0 ish1 jsh0 jsh1 ao_loc hne
        ic j i hic hj hi]
      rw [if_pos hlt, if_neg (show ¬ i < j by omega),
        if_pos (rfl : ANTIHERMI = ANTIHERMI),
        Nat.add_comm j (i * (ao_loc ish1 - ao_loc ish0))]
      ring

/-- C4 (witness): the amended theorem applies to a one-shell, two-orbital
HERMITIAN fill with an asymmetric kernel, giving `M[1,0] = M[0,1]`. -/
theorem fill2c_triangular_mirror_witness :
    NUMINT1e_fill2c (fun _ _ _ p q => (p : ℝ) + 2 * q) (fun _ => 0) 1 HERMITIAN
        0 1 0 1 (fun k => 2 * k)
        (0 * (((fun k => 2 * k) 1 - (fun k => 2 * k) 0)
            * ((fun k => 2 * k) 1 - (fun k => 2 * k) 0))
          + (0 * ((fun k => 2 * k) 1 - (fun k => 2 * k) 0) + 1))
      = NUMINT1e_fill2c (fun _ _ _ p q => (p : ℝ) + 2 * q) (fun _ => 0) 1
        HERMITIAN 0 1 0 1 (fun k => 2 * k)
        (0 * (((fun k => 2 * k) 1 - (fun k => 2 * k) 0)
            * ((fun k => 2 * k) 1 - (fun k => 2 * k) 0))
          + (1 * ((fun k => 2 * k) 1 - (fun k => 2 * k) 0) + 0)) :=
  (fill2c_triangular_mirror (fun _ _ _ p q => (p : ℝ) + 2 * q) (fun _ => 0) 1
      HERMITIAN 0 1 0 1 (fun k => 2 * k)).2.1 (Or.inl rfl) 0 1 0
    (by norm_num) (by norm_num) (by norm_num)

end NumintGrid
